import Mathlib

/-!
Verification development for the Stock-Screener market-data ingestion core.

Shallow embedding of the functions referenced by the specification:
timestamps and prices are integers (milliseconds since the epoch and raw
numeric values), the relational tables are lists of row structures, the
asynchronous write paths are pure state-passing functions, and fallible
operations return Except values.  Source locations are quoted next to
each definition.
-/

namespace StockScreener

/-! ## Storage gateway retry model

Embeds executeQuery from src/backend/backfill-service.js lines 49-88 and
executeQueryWithRetry from src/unnamed/part_001 lines 320-360.  A pool is
abstracted by which query interface it exposes and by the outcome of each
successive execution of the statement (attempts k is the result of the
k-th execution). -/

/-- Error codes used by the retry classification at
src/backend/backfill-service.js lines 78-80: ECONNRESET,
PROTOCOL_CONNECTION_LOST, PROTOCOL_ENQUEUE_AFTER_FATAL_ERROR; every other
failure is a single case since the code only distinguishes these three. -/
inductive DbErrCode where
  | econnreset
  | protocolConnectionLost
  | protocolEnqueueAfterFatalError
  | other
deriving DecidableEq, Repr

/-- Classification of transient connection errors, from the condition at
src/backend/backfill-service.js lines 78-80. -/
def isRetriableCode (c : DbErrCode) : Bool :=
  match c with
  | .econnreset => true
  | .protocolConnectionLost => true
  | .protocolEnqueueAfterFatalError => true
  | .other => false

/-- Which query interface the pool object exposes; the source branches on
typeof pool.query and typeof pool.execute (lines 56 and 67). -/
inductive PoolIface where
  | callbackQuery
  | executeOnly
  | unsupported
deriving DecidableEq, Repr

/-- executeQuery from src/backend/backfill-service.js lines 49-88.
On the callbackQuery branch the JavaScript returns the promise built
around pool.query WITHOUT awaiting it, so a rejection of that promise
bypasses the catch block entirely and the async function rejects with the
original error: the denotation is just the outcome of the current
attempt.  On the executeOnly branch the code awaits pool.execute, so a
rejection is caught; with retries left and a retriable code it waits one
second and recurses with retries - 1, otherwise it rethrows.  An
unsupported pool throws synchronously inside the try; that error carries
no code, is not retriable, and is rethrown. -/
def executeQuery {α : Type} (iface : PoolIface) (attempts : Nat → Except DbErrCode α)
    (retries : Nat) (attempt : Nat) : Except DbErrCode α :=
  match iface with
  | .callbackQuery => attempts attempt
  | .unsupported => .error .other
  | .executeOnly =>
    match attempts attempt, retries with
    | .ok r, _ => .ok r
    | .error e, 0 => .error e
    | .error e, n + 1 =>
      if isRetriableCode e then executeQuery iface attempts n (attempt + 1)
      else .error e

/-- executeQueryWithRetry from src/unnamed/part_001 lines 320-360.  The
while loop body executes return new Promise(...) on its first iteration;
the return exits the loop immediately and, because the promise is not
awaited, its rejection bypasses the catch block, so the function settles
with the outcome of the first execution regardless of maxRetries. -/
def executeQueryWithRetry {α : Type} (attempts : Nat → Except DbErrCode α)
    (_maxRetries : Nat) : Except DbErrCode α :=
  attempts 0

/-! ## Granularity selection -/

/-- determineTimeframe from src/backend/backfill-service.js lines 211-220.
The source computes diffDays = |endDate - startDate| / 86400000 in
floating point and compares it against 1, 7, 30, 365; for the integral
millisecond differences involved this is exactly the comparison of the
millisecond span against the thresholds in milliseconds. -/
def determineTimeframe (startDate endDate : Int) : String :=
  let diffMs : Nat := (endDate - startDate).natAbs
  if diffMs < 86400000 then "minute"
  else if diffMs < 7 * 86400000 then "hour"
  else if diffMs < 30 * 86400000 then "day"
  else if diffMs < 365 * 86400000 then "week"
  else "month"

/-! ## Gap detection -/

/-- One missing period as pushed by identifyMissingPeriods
(src/backend/backfill-service.js lines 277-333). -/
structure GapPeriod where
  stockId : Nat
  symbol : String
  startTime : Int
  endTime : Int
deriving DecidableEq, Repr

/-- The consecutive-pair walk of identifyMissingPeriods, lines 289-305: a
pair of successive stored timestamps whose difference exceeds the gap
threshold (in minutes; the source divides the millisecond difference by
60000 before comparing, which is equivalent to comparing against
threshold * 60000 ms) contributes one gap spanning (prev + 1 min,
curr - 1 min). -/
def pairGaps (stockId : Nat) (symbol : String) (thr : Int) : List Int → List GapPeriod
  | a :: b :: rest =>
    (if b - a > thr * 60000 then [⟨stockId, symbol, a + 60000, b - 60000⟩] else [])
      ++ pairGaps stockId symbol thr (b :: rest)
  | _ => []

/-- Per-stock body of identifyMissingPeriods
(src/backend/backfill-service.js lines 259-334) applied to the ascending
list of stored price_history timestamps for one stock in the window
[startTime, endTime]: an empty list yields the whole window as one gap
(lines 276-284); otherwise the consecutive-pair gaps are pushed first
(lines 289-305), then the leading-edge gap when the first point is more
than the threshold after the window start (lines 307-318), then the
trailing-edge gap when the window end is more than the threshold after
the last point (lines 320-333). -/
def identifyMissingPeriodsForStock (stockId : Nat) (symbol : String)
    (startTime endTime thr : Int) (ts : List Int) : List GapPeriod :=
  match ts with
  | [] => [⟨stockId, symbol, startTime, endTime⟩]
  | t0 :: rest =>
    let interior := pairGaps stockId symbol thr (t0 :: rest)
    let leading :=
      if t0 - startTime > thr * 60000 then [⟨stockId, symbol, startTime, t0 - 60000⟩] else []
    let lastT := (t0 :: rest).getLastD 0
    let trailing :=
      if endTime - lastT > thr * 60000 then [⟨stockId, symbol, lastT + 60000, endTime⟩] else []
    interior ++ leading ++ trailing

/-! ## Keyed tables and writers

The relational store is modelled as a list of rows.  The SQL schema
(CREATE TABLE statements) is not under src/, so the key discipline is
taken from the specification. -/

/-- Failure of a plain INSERT. -/
inductive InsertErr where
  | duplicateKey
deriving DecidableEq, Repr

/-- Whether some row of the table has the given key. -/
def hasRowWithKey {α κ : Type} [DecidableEq κ] (key : α → κ) (k : κ) (t : List α) : Bool :=
  t.any fun r => decide (key r = k)

/-- Modelled from the spec: the SQL schema is missing from src/; per the
PricePoint and AggregateBar uniqueness invariant (at most one row per
(instrumentRef, timestamp)) the tables carry a unique key on
(stock_id, timestamp), so a plain INSERT of an existing key fails with a
duplicate-key error instead of adding a row. -/
def insertRow {α κ : Type} [DecidableEq κ] (key : α → κ) (row : α) (t : List α) :
    Except InsertErr (List α) :=
  if hasRowWithKey key (key row) t then .error .duplicateKey else .ok (t ++ [row])

/-- INSERT ... ON DUPLICATE KEY UPDATE semantics: when a row with the
incoming key exists, that row is rewritten by upd (which updates only the
mutable fields); otherwise the incoming row is appended. -/
def upsertRow {α κ : Type} [DecidableEq κ] (key : α → κ) (upd : α → α → α)
    (row : α) (t : List α) : List α :=
  if hasRowWithKey key (key row) t then
    t.map fun r => if key r = key row then upd r row else r
  else t ++ [row]

/-- Sequential application of upserts, one per incoming row. -/
def upsertAll {α κ : Type} [DecidableEq κ] (key : α → κ) (upd : α → α → α)
    (rows : List α) (t : List α) : List α :=
  rows.foldl (fun acc row => upsertRow key upd row acc) t

/-- The last incoming row with a given key, used to state which value an
upsert sequence leaves behind. -/
def lastPoint {α κ : Type} [DecidableEq κ] (key : α → κ) (k : κ) (pts : List α) : Option α :=
  (pts.filter fun p => decide (key p = k)).getLast?

/-- First row (if any) carrying the given key. -/
def lookupKey {α κ : Type} [DecidableEq κ] (key : α → κ) (k : κ) (t : List α) : Option α :=
  t.find? fun r => decide (key r = k)

/-- A table is key-unique when no two rows share a key. -/
def UniqueKeys {α κ : Type} (key : α → κ) (t : List α) : Prop :=
  (t.map key).Nodup

/-- One price_history row: stock_id, price, volume, timestamp, source. -/
structure PricePointRow where
  stockId : Nat
  price : Int
  volume : Int
  timestamp : Int
  source : String
deriving DecidableEq, Repr

/-- Key of a price_history row (see the insertRow comment on the
spec-modelled unique key). -/
def pricePointKey (r : PricePointRow) : Nat × Int := (r.stockId, r.timestamp)

/-- ON DUPLICATE KEY UPDATE price = VALUES(price), volume = VALUES(volume)
from the backfill INSERT (src/backend/backfill-service.js lines 414-416):
only price and volume change; key and source are kept. -/
def pricePointUpd (r p : PricePointRow) : PricePointRow :=
  { r with price := p.price, volume := p.volume }

/-- One aggregate_history row. -/
structure AggregateRow where
  stockId : Nat
  openPrice : Int
  highPrice : Int
  lowPrice : Int
  closePrice : Int
  volume : Int
  timestamp : Int
  source : String
deriving DecidableEq, Repr

/-- Key of an aggregate_history row. -/
def aggregateKey (r : AggregateRow) : Nat × Int := (r.stockId, r.timestamp)

/-- ON DUPLICATE KEY UPDATE clause of the backfill aggregate INSERT
(src/backend/backfill-service.js lines 444-452): updates the OHLC fields
and volume only. -/
def aggregateUpd (r p : AggregateRow) : AggregateRow :=
  { r with openPrice := p.openPrice, highPrice := p.highPrice,
           lowPrice := p.lowPrice, closePrice := p.closePrice, volume := p.volume }

/-- The JavaScript expression a || b for a possibly-missing numeric field:
a missing or zero value falls through to the default. -/
def jsOr (a : Option Int) (b : Int) : Int :=
  match a with
  | some v => if v = 0 then b else v
  | none => b

/-- One element of response.data in backfillPeriod: time, price, and the
optional volume / open / high / low fields read at
src/backend/backfill-service.js lines 409-438. -/
structure HistoricalPoint where
  time : Int
  price : Int
  volume : Option Int
  openVal : Option Int
  highVal : Option Int
  lowVal : Option Int
deriving DecidableEq, Repr

/-- The price_history row written for one historical point
(src/backend/backfill-service.js lines 412-432): price, volume || 0,
timestamp, source rest. -/
def backfillPricePointRow (stockId : Nat) (p : HistoricalPoint) : PricePointRow :=
  ⟨stockId, p.price, jsOr p.volume 0, p.time, "rest"⟩

/-- The aggregate_history row written for one historical point
(src/backend/backfill-service.js lines 434-491): open/high/low default to
price via ||, close is price, volume is volume || 0, source rest. -/
def backfillAggregateRow (stockId : Nat) (p : HistoricalPoint) : AggregateRow :=
  ⟨stockId, jsOr p.openVal p.price, jsOr p.highVal p.price, jsOr p.lowVal p.price,
    p.price, jsOr p.volume 0, p.time, "rest"⟩

/-- The write loop of backfillPeriod (src/backend/backfill-service.js
lines 408-494): for each returned point, upsert one price_history row;
when the timeframe is coarser than minute bars (timeframe is neither
minute nor 1m, line 441) also upsert one aggregate_history row. -/
def backfillPeriodWrites (stockId : Nat) (timeframe : String)
    (points : List HistoricalPoint) (ph : List PricePointRow) (ah : List AggregateRow) :
    List PricePointRow × List AggregateRow :=
  points.foldl
    (fun s p =>
      (upsertRow pricePointKey pricePointUpd (backfillPricePointRow stockId p) s.1,
       if timeframe ≠ "minute" ∧ timeframe ≠ "1m" then
         upsertRow aggregateKey aggregateUpd (backfillAggregateRow stockId p) s.2
       else s.2))
    (ph, ah)

/-- Trade-event write of the websocket collector
(src/backend/services/polygonDataCollector.js lines 549-573): a plain
INSERT INTO price_history with source websocket; the surrounding
try/catch logs an insert failure and leaves the table unchanged. -/
def websocketTradeWrite (stockId : Nat) (price volume ts : Int)
    (t : List PricePointRow) : List PricePointRow :=
  match insertRow pricePointKey ⟨stockId, price, volume, ts, "websocket"⟩ t with
  | .ok t2 => t2
  | .error _ => t

/-- Modelled from the spec: the polling collector INSERT INTO
price_history (processSymbol, src/backend/services/polygonDataCollector.js
lines 128-132) names no source column and the schema default is not under
src/; the spec tags polling-collector rows with source polling. -/
def pollingDefaultSource : String := "polling"

/-- Price-history write of the polling collector (processSymbol,
src/backend/services/polygonDataCollector.js lines 128-132): a plain
INSERT; processSymbol catches any error and returns null, leaving the
table unchanged. -/
def pollingPriceWrite (stockId : Nat) (price volume ts : Int)
    (t : List PricePointRow) : List PricePointRow :=
  match insertRow pricePointKey ⟨stockId, price, volume, ts, pollingDefaultSource⟩ t with
  | .ok t2 => t2
  | .error _ => t

/-- One write against price_history by one of the three writers. -/
inductive PriceWriteOp where
  | streamingOp (stockId : Nat) (price volume ts : Int)
  | pollingOp (stockId : Nat) (price volume ts : Int)
  | repairOp (stockId : Nat) (price : Int) (volume : Option Int) (ts : Int)
deriving DecidableEq, Repr

/-- Apply one writer operation to the price_history table. -/
def applyPriceWriteOp (t : List PricePointRow) : PriceWriteOp → List PricePointRow
  | .streamingOp sid p v ts => websocketTradeWrite sid p v ts t
  | .pollingOp sid p v ts => pollingPriceWrite sid p v ts t
  | .repairOp sid p v ts =>
    upsertRow pricePointKey pricePointUpd (backfillPricePointRow sid ⟨ts, p, v, none, none, none⟩) t

/-- Apply a sequence of writer operations in order. -/
def applyPriceWriteOps (ops : List PriceWriteOp) (t : List PricePointRow) : List PricePointRow :=
  ops.foldl applyPriceWriteOp t

/-! ## Backfill job tracking -/

/-- One entry of a job's errors list as pushed at
src/backend/backfill-service.js lines 586-592 (symbol, startTime,
endTime, error message). -/
structure JobError where
  symbol : String
  startTime : Int
  endTime : Int
  message : String
deriving DecidableEq, Repr

/-- The in-memory job record of performBackfill
(src/backend/backfill-service.js lines 529-538 and subsequent
updateJobStatus merges).  The id and wall-clock fields (startedAt,
completedAt) are omitted: they are opaque to every claim.  totalPeriods,
message and errorMessage are absent until first set, hence Option. -/
structure JobState where
  status : String
  progress : Nat
  missingPeriods : List GapPeriod
  processedPeriods : Nat
  errors : List JobError
  completed : Bool
  totalPeriods : Option Nat
  message : Option String
  errorMessage : Option String
deriving DecidableEq, Repr

/-- The job record created at src/backend/backfill-service.js
lines 529-538. -/
def newJobState : JobState :=
  ⟨"running", 0, [], 0, [], false, none, none, none⟩

/-- Math.round(((i + 1) / n) * 100) for naturals: round-half-up of
100 * k / n, as computed at src/backend/backfill-service.js line 583. -/
def jsRound100 (k n : Nat) : Nat := (200 * k + n) / (2 * n)

/-- One iteration of the gap loop (src/backend/backfill-service.js
lines 570-603): on success only processedPeriods and progress are
updated; on failure an error entry is appended and processedPeriods and
progress are updated the same way.  outcomes i is the result of
backfillPeriod on the i-th gap. -/
def processGapUpdate (n : Nat) (outcomes : Nat → Except String Unit)
    (cur : JobState) (i : Nat) (g : GapPeriod) : JobState :=
  match outcomes i with
  | .ok _ =>
    { cur with processedPeriods := i + 1, progress := jsRound100 (i + 1) n }
  | .error m =>
    { cur with errors := cur.errors ++ [⟨g.symbol, g.startTime, g.endTime, m⟩],
               processedPeriods := i + 1, progress := jsRound100 (i + 1) n }

/-- The sequence of job states stored by the gap loop, one per iteration,
starting at index i with current state cur. -/
def gapLoopStates (n : Nat) (outcomes : Nat → Except String Unit) :
    List GapPeriod → Nat → JobState → List JobState
  | [], _, _ => []
  | g :: rest, i, cur =>
    let nxt := processGapUpdate n outcomes cur i g
    nxt :: gapLoopStates n outcomes rest (i + 1) nxt

/-- The failure update at src/backend/backfill-service.js lines 617-622:
status failed, error message recorded, completed true; progress is not
touched. -/
def failJobState (j : JobState) (msg : String) : JobState :=
  { j with status := "failed", errorMessage := some msg, completed := true }

/-- The update at src/backend/backfill-service.js line 546: status
identifying_gaps. -/
def jobIdentifying : JobState := { newJobState with status := "identifying_gaps" }

/-- The update at src/backend/backfill-service.js lines 552-556 once the
missing periods are known: the gap list, status processing and the total
count are stored. -/
def processingJobState (gaps : List GapPeriod) : JobState :=
  { jobIdentifying with missingPeriods := gaps, status := "processing",
                        totalPeriods := some gaps.length }

/-- The full sequence of job states stored by one performBackfill run
(src/backend/backfill-service.js lines 524-626), in store order.
poolReady abstracts the pool precondition at line 542; gapsResult is the
outcome of identifyMissingPeriods (which reads the store and may throw);
outcomes gives each backfillPeriod call's result.  The branches mirror
the source: a missing pool throws into the catch block, which stores the
failed update; a gap-identification error likewise; zero gaps completes
immediately with progress 100 (lines 558-567); otherwise the loop stores
one update per gap and the run then stores the completed update, which
does not touch progress (lines 606-610). -/
def performBackfillTrace : Bool → Except String (List GapPeriod) →
    (Nat → Except String Unit) → List JobState
  | false, _, _ =>
    [newJobState, failJobState newJobState "Database pool not initialized"]
  | true, .error e, _ => [newJobState, jobIdentifying, failJobState jobIdentifying e]
  | true, .ok gaps, outcomes =>
    let j2 := processingJobState gaps
    if gaps.isEmpty then
      [newJobState, jobIdentifying, j2,
       { j2 with status := "completed", progress := 100, completed := true,
                 message := some "No data gaps found that require backfilling" }]
    else
      let states := gapLoopStates gaps.length outcomes gaps 0 j2
      [newJobState, jobIdentifying, j2] ++ states
        ++ [{ states.getLastD j2 with status := "completed", completed := true }]

/-- The job record left in the map when the run settles. -/
def performBackfillFinal (poolReady : Bool)
    (gapsResult : Except String (List GapPeriod))
    (outcomes : Nat → Except String Unit) : JobState :=
  (performBackfillTrace poolReady gapsResult outcomes).getLastD newJobState

/-- Expected error entries of a run: one entry per failing gap, in gap
order, starting at index i. -/
def backfillErrorEntries (outcomes : Nat → Except String Unit) :
    List GapPeriod → Nat → List JobError
  | [], _ => []
  | g :: rest, i =>
    (match outcomes i with
     | .ok _ => []
     | .error m => [⟨g.symbol, g.startTime, g.endTime, m⟩])
      ++ backfillErrorEntries outcomes rest (i + 1)

/-- Result of getBackfillStatus: either a job snapshot or the
Job-not-found object. -/
inductive BackfillStatusResult where
  | job (j : JobState)
  | notFound (message : String)
deriving DecidableEq, Repr

/-- getBackfillStatus from src/backend/backfill-service.js lines 187-189:
backfillJobs.get(jobId) || error object.  Map values are job objects and
never falsy, so the || falls through exactly when the key is absent. -/
def getBackfillStatus (jobs : List (String × JobState)) (jobId : String) :
    BackfillStatusResult :=
  match jobs.lookup jobId with
  | some j => .job j
  | none => .notFound "Job not found"

/-! ## Retention cleanup -/

/-- One row of price_history or aggregate_history as seen by the cleanup
pass: primary-key id, source tag, timestamp, and a payload field standing
for the remaining columns. -/
structure HistoryRow where
  id : Nat
  source : String
  timestamp : Int
  payload : Int
deriving DecidableEq, Repr

/-- The WHERE clause of the cleanup SELECT
(src/backend/services/polygonDataCollector.js lines 699-707) minus the id
cursor: source websocket and timestamp before the cutoff. -/
def wsRowExpired (cutoff : Int) (r : HistoryRow) : Bool :=
  r.source == "websocket" && decide (r.timestamp < cutoff)

/-- The SELECT id ... WHERE source = websocket AND timestamp < cutoff AND
id > lastId ORDER BY id LIMIT batchSize of cleanupTableInBatches
(src/backend/services/polygonDataCollector.js lines 699-707). -/
def selectCleanupBatch (cutoff : Int) (batchSize : Nat) (table : List HistoryRow)
    (lastId : Nat) : List Nat :=
  (List.insertionSort (· ≤ ·)
      ((table.filter fun r => wsRowExpired cutoff r && decide (lastId < r.id)).map (·.id))).take
    batchSize

/-- The while loop of cleanupTableInBatches
(src/backend/services/polygonDataCollector.js lines 692-752) for an
error-free pass: select the next batch of ids, stop when it is empty,
otherwise delete exactly those ids, advance the cursor to the last
deleted id, and repeat.  The loop is written against fuel; the wrapper
passes enough fuel that it never runs out, since every nonempty batch
deletes at least one expired row. -/
def cleanupLoop (cutoff : Int) (batchSize : Nat) :
    Nat → List HistoryRow → Nat → List HistoryRow
  | 0, table, _ => table
  | fuel + 1, table, lastId =>
    let ids := selectCleanupBatch cutoff batchSize table lastId
    if ids.isEmpty then table
    else
      cleanupLoop cutoff batchSize fuel
        (table.filter fun r => !(decide (r.id ∈ ids))) (ids.getLastD 0)

/-- cleanupTableInBatches (src/backend/services/polygonDataCollector.js
lines 684-757) on an error-free pass: run the batch loop from cursor 0. -/
def cleanupTableInBatches (cutoff : Int) (batchSize : Nat)
    (table : List HistoryRow) : List HistoryRow :=
  cleanupLoop cutoff batchSize ((table.filter (wsRowExpired cutoff)).length + 1) table 0

/-- cleanupWebsocketData (src/backend/services/polygonDataCollector.js
lines 651-682): cutoff is fifteen minutes before now, batch size 250, and
both history tables are cleaned with cleanupTableInBatches. -/
def cleanupWebsocketData (now : Int) (priceHistory aggregateHistory : List HistoryRow) :
    List HistoryRow × List HistoryRow :=
  let cutoff := now - 15 * 60000
  (cleanupTableInBatches cutoff 250 priceHistory,
   cleanupTableInBatches cutoff 250 aggregateHistory)

/-! ## Theorems -/

/-- C2 (code bug evaluation): on the callbackQuery pool path — the branch
taken for the mysql pools created in src/unnamed/part_001, which expose
pool.query — a statement whose first execution fails with the transient
code ECONNRESET is surfaced immediately with zero retries, because the
promise is returned without await and its rejection bypasses the catch
block; the executeOnly path of the same function retries the identical
scenario to success, and surfaces a non-transient error immediately;
executeQueryWithRetry from src/unnamed/part_001 has the same
return-without-await slip and also surfaces the first failure. -/
theorem executeQuery_callback_path_never_retries :
    executeQuery (α := Nat) PoolIface.callbackQuery
        (fun a => if a = 0 then .error .econnreset else .ok 42) 3 0
      = .error .econnreset
    ∧ executeQuery (α := Nat) PoolIface.executeOnly
        (fun a => if a = 0 then .error .econnreset else .ok 42) 3 0
      = .ok 42
    ∧ executeQuery (α := Nat) PoolIface.executeOnly (fun _ => .error .other) 3 0
      = .error .other
    ∧ executeQueryWithRetry (α := Nat)
        (fun a => if a = 0 then .error .econnreset else .ok 42) 5
      = .error .econnreset := by
  refine ⟨rfl, rfl, rfl, rfl⟩

/-- Membership in an if-guarded singleton list. -/
theorem mem_if_singleton {α : Type} {c : Prop} [Decidable c] {x g : α} :
    (g ∈ if c then [x] else []) ↔ c ∧ g = x := by
  split_ifs with h <;> simp [h]

/-- A gap is produced by the consecutive-pair walk exactly for a
consecutive pair of timestamps whose delta exceeds the threshold. -/
theorem mem_pairGaps_iff (sid : Nat) (sym : String) (thr : Int) (ts : List Int)
    (g : GapPeriod) :
    g ∈ pairGaps sid sym thr ts ↔
      ∃ pr ∈ ts.zip ts.tail, pr.2 - pr.1 > thr * 60000
        ∧ g = ⟨sid, sym, pr.1 + 60000, pr.2 - 60000⟩ := by
  induction ts with
  | nil => simp [pairGaps]
  | cons a rest ih =>
    cases rest with
    | nil => simp [pairGaps]
    | cons b rest2 =>
      by_cases hc : b - a > thr * 60000
      · simp only [pairGaps, if_pos hc, List.singleton_append, List.mem_cons, ih,
          List.tail_cons, List.zip_cons_cons]
        constructor
        · rintro (rfl | ⟨pr, hpr, h1, h2⟩)
          · exact ⟨(a, b), Or.inl rfl, hc, rfl⟩
          · exact ⟨pr, Or.inr hpr, h1, h2⟩
        · rintro ⟨pr, rfl | hpr2, h1, h2⟩
          · left; rw [h2]
          · right; exact ⟨pr, hpr2, h1, h2⟩
      · simp only [pairGaps, if_neg hc, List.nil_append, ih, List.tail_cons,
          List.zip_cons_cons]
        constructor
        · rintro ⟨pr, hpr, h1, h2⟩
          exact ⟨pr, List.mem_cons_of_mem _ hpr, h1, h2⟩
        · rintro ⟨pr, hpr, h1, h2⟩
          rcases List.mem_cons.mp hpr with rfl | hpr2
          · exact absurd h1 hc
          · exact ⟨pr, hpr2, h1, h2⟩

/-- C3: for one symbol and window, a gap is in the result of gap
detection exactly when either no point is stored and it is the whole
window, or it comes from a consecutive pair of stored timestamps whose
delta exceeds the threshold (spanning one minute after the earlier point
to one minute before the later one), or it is the leading-edge gap (the
first point is more than the threshold after the window start), or it is
the trailing-edge gap (the window end is more than the threshold after
the last point); there are no other gaps. -/
theorem identifyMissingPeriods_gap_characterization (sid : Nat) (sym : String)
    (startTime endTime thr : Int) (ts : List Int) (g : GapPeriod) :
    g ∈ identifyMissingPeriodsForStock sid sym startTime endTime thr ts ↔
      (ts = [] ∧ g = ⟨sid, sym, startTime, endTime⟩)
      ∨ (∃ pr ∈ ts.zip ts.tail, pr.2 - pr.1 > thr * 60000
          ∧ g = ⟨sid, sym, pr.1 + 60000, pr.2 - 60000⟩)
      ∨ (∃ t0, ts.head? = some t0 ∧ t0 - startTime > thr * 60000
          ∧ g = ⟨sid, sym, startTime, t0 - 60000⟩)
      ∨ (∃ tl, ts.getLast? = some tl ∧ endTime - tl > thr * 60000
          ∧ g = ⟨sid, sym, tl + 60000, endTime⟩) := by
  cases ts with
  | nil => simp [identifyMissingPeriodsForStock]
  | cons t0 rest =>
    have hne : t0 :: rest ≠ [] := by simp
    obtain ⟨y, hy⟩ := Option.isSome_iff_exists.mp (List.getLast?_isSome.mpr hne)
    have hyD : (t0 :: rest).getLastD 0 = y := by
      rw [List.getLastD_eq_getLast?, hy]; rfl
    simp only [identifyMissingPeriodsForStock, List.mem_append,
      mem_pairGaps_iff sid sym thr, mem_if_singleton, hyD, hy, List.head?_cons]
    simp only [List.cons_ne_nil, false_and, false_or, Option.some.injEq]
    constructor
    · rintro ((h | ⟨hc, rfl⟩) | ⟨hc, rfl⟩)
      · exact Or.inl h
      · exact Or.inr (Or.inl ⟨t0, rfl, hc, rfl⟩)
      · exact Or.inr (Or.inr ⟨y, rfl, hc, rfl⟩)
    · rintro (h | ⟨t1, rfl, hc, rfl⟩ | ⟨tl, rfl, hc, rfl⟩)
      · exact Or.inl (Or.inl h)
      · exact Or.inl (Or.inr ⟨hc, rfl⟩)
      · exact Or.inr ⟨hc, rfl⟩

/-- C4 (counterexample): for stored points at minutes 0, 5 and 30, gap
threshold 15 minutes and window from minute 0 to minute 40 (all in
milliseconds), the delta from the last point to the window end is 10
minutes, which does not exceed the threshold, so the claimed trailing
Gap from minute 31 to minute 40 is not produced and the result does not
have two gaps. -/
theorem gap_example_trailing_gap_absent :
    (⟨1, "AAPL", 1860000, 2400000⟩ : GapPeriod)
        ∉ identifyMissingPeriodsForStock 1 "AAPL" 0 2400000 15 [0, 300000, 1800000]
    ∧ (identifyMissingPeriodsForStock 1 "AAPL" 0 2400000 15 [0, 300000, 1800000]).length
        ≠ 2 := by
  decide

/-- C4 (amended): for stored points at minutes 0, 5 and 30, threshold 15
minutes and window from minute 0 to minute 40, gap detection yields
exactly one Gap, covering minutes 6 to 29; there is no gap between
minutes 0 and 5, and no trailing gap because the 10-minute delta from
minute 30 to the window end does not exceed the threshold. -/
theorem gap_example_single_interior_gap :
    identifyMissingPeriodsForStock 1 "AAPL" 0 2400000 15 [0, 300000, 1800000]
      = [⟨1, "AAPL", 360000, 1740000⟩] := by
  decide

/-- A table has a row with key k exactly when k is among its keys. -/
theorem hasRowWithKey_eq_true_iff {α κ : Type} [DecidableEq κ] (key : α → κ)
    (k : κ) (t : List α) :
    hasRowWithKey key k t = true ↔ k ∈ t.map key := by
  unfold hasRowWithKey
  rw [List.any_eq_true]
  constructor
  · rintro ⟨r, hr, hdec⟩
    exact List.mem_map.mpr ⟨r, hr, of_decide_eq_true hdec⟩
  · intro hmem
    obtain ⟨r, hr, hk⟩ := List.mem_map.mp hmem
    exact ⟨r, hr, decide_eq_true hk⟩

/-- A key-preserving pointwise update leaves the key column unchanged. -/
theorem map_key_updateAll {α κ : Type} [DecidableEq κ] (key : α → κ) (upd : α → α → α)
    (hkey : ∀ r p, key (upd r p) = key r) (row : α) :
    ∀ t : List α,
      ((t.map fun r => if key r = key row then upd r row else r).map key) = t.map key := by
  intro t
  induction t with
  | nil => rfl
  | cons a t ih =>
    simp only [List.map_cons, ih]
    congr 1
    split_ifs with h
    · exact hkey a row
    · rfl

/-- Key column of an upsert: unchanged on conflict, extended by the new
key otherwise. -/
theorem map_key_upsertRow {α κ : Type} [DecidableEq κ] (key : α → κ) (upd : α → α → α)
    (hkey : ∀ r p, key (upd r p) = key r) (row : α) (t : List α) :
    (upsertRow key upd row t).map key =
      if key row ∈ t.map key then t.map key else t.map key ++ [key row] := by
  unfold upsertRow
  by_cases h : hasRowWithKey key (key row) t
  · rw [if_pos h, if_pos ((hasRowWithKey_eq_true_iff key (key row) t).mp h),
      map_key_updateAll key upd hkey row t]
  · rw [if_neg h,
      if_neg (fun hmem => h ((hasRowWithKey_eq_true_iff key (key row) t).mpr hmem)),
      List.map_append]
    rfl

/-- Upserting preserves key uniqueness. -/
theorem uniqueKeys_upsertRow {α κ : Type} [DecidableEq κ] (key : α → κ) (upd : α → α → α)
    (hkey : ∀ r p, key (upd r p) = key r) (row : α) (t : List α)
    (h : UniqueKeys key t) : UniqueKeys key (upsertRow key upd row t) := by
  unfold UniqueKeys at *
  rw [map_key_upsertRow key upd hkey row t]
  split_ifs with hmem
  · exact h
  · simp [List.nodup_append, h, hmem]

/-- A plain insert that succeeds appended a fresh key, so key uniqueness
is preserved. -/
theorem uniqueKeys_of_insertRow_ok {α κ : Type} [DecidableEq κ] (key : α → κ)
    (row : α) (t t2 : List α) (hres : insertRow key row t = Except.ok t2)
    (h : UniqueKeys key t) : UniqueKeys key t2 := by
  unfold insertRow at hres
  by_cases hk : hasRowWithKey key (key row) t
  · rw [if_pos hk] at hres
    cases hres
  · rw [if_neg hk] at hres
    injection hres with h2
    subst h2
    unfold UniqueKeys at *
    rw [List.map_append]
    have hmem : key row ∉ t.map key :=
      fun hmem => hk ((hasRowWithKey_eq_true_iff key (key row) t).mpr hmem)
    simp [List.nodup_append, h, hmem]

/-- Every one of the three price_history writers preserves the unique
key on (stock_id, timestamp). -/
theorem uniqueKeys_applyPriceWriteOp (t : List PricePointRow) (op : PriceWriteOp)
    (h : UniqueKeys pricePointKey t) :
    UniqueKeys pricePointKey (applyPriceWriteOp t op) := by
  cases op with
  | streamingOp sid p v ts =>
    show UniqueKeys pricePointKey (websocketTradeWrite sid p v ts t)
    unfold websocketTradeWrite
    cases hres : insertRow pricePointKey ⟨sid, p, v, ts, "websocket"⟩ t with
    | ok t2 => exact uniqueKeys_of_insertRow_ok pricePointKey _ t t2 hres h
    | error err => exact h
  | pollingOp sid p v ts =>
    show UniqueKeys pricePointKey (pollingPriceWrite sid p v ts t)
    unfold pollingPriceWrite
    cases hres : insertRow pricePointKey ⟨sid, p, v, ts, pollingDefaultSource⟩ t with
    | ok t2 => exact uniqueKeys_of_insertRow_ok pricePointKey _ t t2 hres h
    | error err => exact h
  | repairOp sid p v ts =>
    exact uniqueKeys_upsertRow pricePointKey pricePointUpd (fun _ _ => rfl) _ t h

/-- C1 (counterexample): writing a streaming point at timestamp 10 with
price 100 and then a polling point at timestamp 10 with price 101 does
not leave one row with price 101 — the polling collector writes with a
plain INSERT (no ON DUPLICATE KEY UPDATE), so under the uniqueness
constraint its write fails on the key conflict and the stored price
stays 100. -/
theorem streaming_then_polling_same_key_price_not_updated :
    ¬ ((applyPriceWriteOps
          [PriceWriteOp.streamingOp 1 100 0 10, PriceWriteOp.pollingOp 1 101 0 10]
          []).map (fun r => r.price) = [101]) := by
  decide

/-- C1 (amended): every sequence of streaming, polling and repair writes
leaves the price-point store with at most one row per
(stock_id, timestamp), but the live writers never update an existing
row: concretely, a streaming point at T = 10 with price 100 followed by
a polling point at T = 10 with price 101 leaves exactly one row at
T = 10 and its price is 100, because the polling plain INSERT conflicts
and is caught; only the backfill repair writer updates mutable fields on
conflict. -/
theorem price_store_uniqueness_and_conflict_semantics :
    (∀ ops : List PriceWriteOp, UniqueKeys pricePointKey (applyPriceWriteOps ops []))
    ∧ applyPriceWriteOps
        [PriceWriteOp.streamingOp 1 100 0 10, PriceWriteOp.pollingOp 1 101 0 10] []
      = [⟨1, 100, 0, 10, "websocket"⟩] := by
  constructor
  · have hgen : ∀ (ops : List PriceWriteOp) (t : List PricePointRow),
        UniqueKeys pricePointKey t → UniqueKeys pricePointKey (applyPriceWriteOps ops t) := by
      intro ops
      induction ops with
      | nil => intro t h; exact h
      | cons op rest ih =>
        intro t h
        exact ih (applyPriceWriteOp t op) (uniqueKeys_applyPriceWriteOp t op h)
    intro ops
    exact hgen ops [] (by simp [UniqueKeys])
  · decide

/-- Element of getLast? is a member. -/
theorem mem_of_getLast?_eq_some {α : Type} :
    ∀ {l : List α} {a : α}, l.getLast? = some a → a ∈ l := by
  intro l
  induction l with
  | nil => intro a h; cases h
  | cons x l ih =>
    intro a h
    cases l with
    | nil =>
      injection h with h2
      subst h2
      exact List.mem_singleton_self _
    | cons y l2 =>
      rw [List.getLast?_cons_cons] at h
      exact List.mem_cons_of_mem x (ih h)

/-- Lookup finds the head when its key matches. -/
theorem lookupKey_cons_pos {α κ : Type} [DecidableEq κ] (key : α → κ) {a : α} {k : κ}
    (h : key a = k) (t : List α) : lookupKey key k (a :: t) = some a := by
  have hd : (fun r => decide (key r = k)) a = true := by simpa using h
  unfold lookupKey
  exact List.find?_cons_of_pos t hd

/-- Lookup skips the head when its key differs. -/
theorem lookupKey_cons_neg {α κ : Type} [DecidableEq κ] (key : α → κ) {a : α} {k : κ}
    (h : ¬ key a = k) (t : List α) : lookupKey key k (a :: t) = lookupKey key k t := by
  have hd : ¬ (fun r => decide (key r = k)) a = true := by simpa using h
  unfold lookupKey
  exact List.find?_cons_of_neg t hd

/-- Lookup fails exactly on keys outside the key column. -/
theorem lookupKey_eq_none_iff {α κ : Type} [DecidableEq κ] (key : α → κ)
    (k : κ) (t : List α) : lookupKey key k t = none ↔ k ∉ t.map key := by
  unfold lookupKey
  rw [List.find?_eq_none]
  constructor
  · intro h hmem
    obtain ⟨r, hr, hk⟩ := List.mem_map.mp hmem
    exact absurd (decide_eq_true hk) (h r hr)
  · intro h r hr
    simp only [decide_eq_true_eq]
    intro hk
    exact h (List.mem_map.mpr ⟨r, hr, hk⟩)

/-- A found row carries the looked-up key. -/
theorem lookupKey_eq_some_key {α κ : Type} [DecidableEq κ] (key : α → κ)
    {k : κ} {t : List α} {r : α} (h : lookupKey key k t = some r) : key r = k := by
  unfold lookupKey at h
  simpa using List.find?_some h

/-- Lookup commutes with a key-preserving pointwise update. -/
theorem lookupKey_updateAll {α κ : Type} [DecidableEq κ] (key : α → κ) (upd : α → α → α)
    (hkey : ∀ r p, key (upd r p) = key r) (row : α) :
    ∀ (t : List α) (k : κ),
      lookupKey key k (t.map fun r => if key r = key row then upd r row else r) =
        (lookupKey key k t).map fun r => if key r = key row then upd r row else r := by
  intro t
  induction t with
  | nil => intro k; rfl
  | cons a t ih =>
    intro k
    by_cases hak : key a = k
    · have h2 : key (if key a = key row then upd a row else a) = k := by
        split_ifs with h
        · rw [hkey]; exact hak
        · exact hak
      rw [List.map_cons, lookupKey_cons_pos key h2, lookupKey_cons_pos key hak]
      rfl
    · have h2 : ¬ key (if key a = key row then upd a row else a) = k := by
        split_ifs with h
        · rw [hkey]; exact hak
        · exact hak
      rw [List.map_cons, lookupKey_cons_neg key h2, lookupKey_cons_neg key hak, ih]

/-- Lookup over an append tries the left table first. -/
theorem lookupKey_append {α κ : Type} [DecidableEq κ] (key : α → κ) :
    ∀ (t1 t2 : List α) (k : κ),
      lookupKey key k (t1 ++ t2) =
        match lookupKey key k t1 with
        | some r => some r
        | none => lookupKey key k t2 := by
  intro t1
  induction t1 with
  | nil => intro t2 k; rfl
  | cons a t1 ih =>
    intro t2 k
    by_cases hak : key a = k
    · rw [List.cons_append, lookupKey_cons_pos key hak, lookupKey_cons_pos key hak]
    · rw [List.cons_append, lookupKey_cons_neg key hak, lookupKey_cons_neg key hak, ih]

/-- What a single upsert leaves behind under the looked-up key. -/
theorem lookupKey_upsertRow {α κ : Type} [DecidableEq κ] (key : α → κ) (upd : α → α → α)
    (hkey : ∀ r p, key (upd r p) = key r) (row : α) (t : List α) (k : κ) :
    lookupKey key k (upsertRow key upd row t) =
      if k = key row then
        some (match lookupKey key (key row) t with
              | some r => upd r row
              | none => row)
      else lookupKey key k t := by
  unfold upsertRow
  by_cases hk : hasRowWithKey key (key row) t
  · rw [if_pos hk, lookupKey_updateAll key upd hkey row t k]
    by_cases hkk : k = key row
    · subst hkk
      rw [if_pos rfl]
      cases hr : lookupKey key (key row) t with
      | none =>
        exact absurd ((hasRowWithKey_eq_true_iff key (key row) t).mp hk)
          ((lookupKey_eq_none_iff key (key row) t).mp hr)
      | some r =>
        have hkr := lookupKey_eq_some_key key hr
        simp [hkr]
    · rw [if_neg hkk]
      cases hr : lookupKey key k t with
      | none => rfl
      | some r =>
        have hkr := lookupKey_eq_some_key key hr
        have hne : ¬ key r = key row := fun hcontra => hkk (hkr ▸ hcontra)
        simp [hne]
  · rw [if_neg hk, lookupKey_append key t [row] k]
    have hnone : lookupKey key (key row) t = none :=
      (lookupKey_eq_none_iff key (key row) t).mpr
        (fun hmem => hk ((hasRowWithKey_eq_true_iff key (key row) t).mpr hmem))
    by_cases hkk : k = key row
    · subst hkk
      rw [hnone, if_pos rfl, lookupKey_cons_pos key rfl]
    · rw [if_neg hkk]
      cases hr : lookupKey key k t with
      | some r => rfl
      | none =>
        rw [lookupKey_cons_neg key (fun h => hkk h.symm)]
        rfl

/-- The upserted key is present afterwards. -/
theorem mem_map_key_upsertRow_self {α κ : Type} [DecidableEq κ] (key : α → κ)
    (upd : α → α → α) (hkey : ∀ r p, key (upd r p) = key r) (row : α) (t : List α) :
    key row ∈ (upsertRow key upd row t).map key := by
  rw [map_key_upsertRow key upd hkey row t]
  split_ifs with h
  · exact h
  · simp

/-- Upserting keeps every existing key. -/
theorem map_key_upsertRow_mono {α κ : Type} [DecidableEq κ] (key : α → κ)
    (upd : α → α → α) (hkey : ∀ r p, key (upd r p) = key r) (row : α) (t : List α)
    {k : κ} (h : k ∈ t.map key) : k ∈ (upsertRow key upd row t).map key := by
  rw [map_key_upsertRow key upd hkey row t]
  split_ifs with h2
  · exact h
  · exact List.mem_append_left _ h

/-- A sequence of upserts keeps every existing key. -/
theorem map_key_upsertAll_mono {α κ : Type} [DecidableEq κ] (key : α → κ)
    (upd : α → α → α) (hkey : ∀ r p, key (upd r p) = key r) (pts : List α) :
    ∀ (t : List α) (k : κ), k ∈ t.map key → k ∈ (upsertAll key upd pts t).map key := by
  induction pts with
  | nil => intro t k h; exact h
  | cons p rest ih =>
    intro t k h
    exact ih _ _ (map_key_upsertRow_mono key upd hkey p t h)

/-- After a sequence of upserts every upserted key is present. -/
theorem mem_map_key_upsertAll {α κ : Type} [DecidableEq κ] (key : α → κ)
    (upd : α → α → α) (hkey : ∀ r p, key (upd r p) = key r) (pts : List α) :
    ∀ (t : List α), ∀ p ∈ pts, key p ∈ (upsertAll key upd pts t).map key := by
  induction pts with
  | nil => intro t p h; cases h
  | cons q rest ih =>
    intro t p hp
    rcases List.mem_cons.mp hp with rfl | hp2
    · exact map_key_upsertAll_mono key upd hkey rest _ _
        (mem_map_key_upsertRow_self key upd hkey p t)
    · exact ih _ p hp2

/-- When every upserted key is already present, the key column is
unchanged by the whole sequence of upserts. -/
theorem map_key_upsertAll_of_mem {α κ : Type} [DecidableEq κ] (key : α → κ)
    (upd : α → α → α) (hkey : ∀ r p, key (upd r p) = key r) (pts : List α) :
    ∀ (t : List α), (∀ p ∈ pts, key p ∈ t.map key) →
      (upsertAll key upd pts t).map key = t.map key := by
  induction pts with
  | nil => intro t _; rfl
  | cons p rest ih =>
    intro t hmem
    have h1 : (upsertRow key upd p t).map key = t.map key := by
      rw [map_key_upsertRow key upd hkey p t, if_pos (hmem p (List.mem_cons_self p rest))]
    calc (upsertAll key upd (p :: rest) t).map key
        = (upsertAll key upd rest (upsertRow key upd p t)).map key := rfl
      _ = (upsertRow key upd p t).map key :=
          ih _ (fun q hq => by rw [h1]; exact hmem q (List.mem_cons_of_mem p hq))
      _ = t.map key := h1

/-- A sequence of upserts preserves key uniqueness. -/
theorem uniqueKeys_upsertAll {α κ : Type} [DecidableEq κ] (key : α → κ)
    (upd : α → α → α) (hkey : ∀ r p, key (upd r p) = key r) (pts : List α) :
    ∀ (t : List α), UniqueKeys key t → UniqueKeys key (upsertAll key upd pts t) := by
  induction pts with
  | nil => intro t h; exact h
  | cons p rest ih =>
    intro t h
    exact ih _ (uniqueKeys_upsertRow key upd hkey p t h)

/-- The last row a key receives is a member with that key. -/
theorem lastPoint_mem_key {α κ : Type} [DecidableEq κ] (key : α → κ)
    {k : κ} {pts : List α} {q : α} (h : lastPoint key k pts = some q) :
    q ∈ pts ∧ key q = k := by
  unfold lastPoint at h
  have hm := List.mem_filter.mp (mem_of_getLast?_eq_some h)
  exact ⟨hm.1, of_decide_eq_true hm.2⟩

/-- One-step unfolding of lastPoint. -/
theorem lastPoint_cons {α κ : Type} [DecidableEq κ] (key : α → κ) (k : κ)
    (p : α) (pts : List α) :
    lastPoint key k (p :: pts) =
      if key p = k then
        match lastPoint key k pts with
        | some q => some q
        | none => some p
      else lastPoint key k pts := by
  unfold lastPoint
  by_cases hp : key p = k
  · have hcons : List.filter (fun r => decide (key r = k)) (p :: pts)
        = p :: List.filter (fun r => decide (key r = k)) pts := by
      simp [List.filter_cons, hp]
    rw [if_pos hp, hcons]
    cases hfl : (pts.filter fun r => decide (key r = k)) with
    | nil => rfl
    | cons b l =>
      rw [List.getLast?_cons_cons]
      cases hq : (b :: l).getLast? with
      | some q => rfl
      | none => exact absurd (List.getLast?_eq_none_iff.mp hq) (by simp)
  · have hcons : List.filter (fun r => decide (key r = k)) (p :: pts)
        = List.filter (fun r => decide (key r = k)) pts := by
      simp [List.filter_cons, hp]
    rw [if_neg hp, hcons]

/-- What the store holds under key k after a whole sequence of upserts:
the last incoming row with that key wins, merged onto the previously
stored row by upd when there was one. -/
theorem lookupKey_upsertAll {α κ : Type} [DecidableEq κ] (key : α → κ) (upd : α → α → α)
    (hkey : ∀ r p, key (upd r p) = key r)
    (hover : ∀ r p q, upd (upd r p) q = upd r q) :
    ∀ (pts : List α), (∀ p ∈ pts, ∀ q ∈ pts, key p = key q → upd p q = q) →
      ∀ (t : List α) (k : κ),
        lookupKey key k (upsertAll key upd pts t) =
          match lastPoint key k pts with
          | some q => some (match lookupKey key k t with
                            | some r => upd r q
                            | none => q)
          | none => lookupKey key k t := by
  intro pts
  induction pts with
  | nil => intro _ t k; rfl
  | cons p rest ih =>
    intro hmatch t k
    have hmatch2 : ∀ a ∈ rest, ∀ b ∈ rest, key a = key b → upd a b = b :=
      fun a ha b hb => hmatch a (List.mem_cons_of_mem p ha) b (List.mem_cons_of_mem p hb)
    rw [show upsertAll key upd (p :: rest) t
          = upsertAll key upd rest (upsertRow key upd p t) from rfl,
      ih hmatch2 (upsertRow key upd p t) k, lastPoint_cons key k p rest]
    by_cases hp : key p = k
    · rw [if_pos hp, lookupKey_upsertRow key upd hkey p t k, if_pos hp.symm, hp]
      cases hl : lastPoint key k rest with
      | some q =>
        obtain ⟨hqmem, hqkey⟩ := lastPoint_mem_key key hl
        cases hr : lookupKey key k t with
        | some r => simp [hover]
        | none =>
          have hpq : upd p q = q :=
            hmatch p (List.mem_cons_self p rest) q (List.mem_cons_of_mem p hqmem)
              (by rw [hp, ← hqkey])
          simp [hpq]
      | none =>
        cases hr : lookupKey key k t with
        | some r => simp
        | none => simp
    · rw [if_neg hp, lookupKey_upsertRow key upd hkey p t k,
        if_neg (fun h => hp h.symm)]

/-- Two key-unique tables with the same key column and the same lookups
are equal. -/
theorem eq_of_uniqueKeys_ext {α κ : Type} [DecidableEq κ] (key : α → κ) :
    ∀ (s t : List α), UniqueKeys key s → UniqueKeys key t → s.map key = t.map key →
      (∀ k, lookupKey key k s = lookupKey key k t) → s = t := by
  intro s
  induction s with
  | nil =>
    intro t _ _ hmap _
    exact (List.map_eq_nil_iff.mp hmap.symm).symm
  | cons a s ih =>
    intro t hs ht hmap hlook
    cases t with
    | nil => simp at hmap
    | cons b t2 =>
      rw [List.map_cons, List.map_cons] at hmap
      injection hmap with hab hmap2
      have hba : a = b := by
        have h1 : lookupKey key (key a) (a :: s) = some a := lookupKey_cons_pos key rfl s
        have h2 : lookupKey key (key a) (b :: t2) = some b :=
          lookupKey_cons_pos key hab.symm t2
        have h3 := hlook (key a)
        rw [h1, h2] at h3
        exact Option.some.inj h3
      subst hba
      have hsp := List.nodup_cons.mp (show (key a :: s.map key).Nodup from hs)
      have htp := List.nodup_cons.mp (show (key a :: t2.map key).Nodup from ht)
      congr 1
      apply ih t2 hsp.2 htp.2 hmap2
      intro k
      by_cases hk : key a = k
      · subst hk
        rw [(lookupKey_eq_none_iff key (key a) s).mpr hsp.1,
          (lookupKey_eq_none_iff key (key a) t2).mpr htp.1]
      · have h3 := hlook k
        rw [lookupKey_cons_neg key hk s, lookupKey_cons_neg key hk t2] at h3
        exact h3

/-- Applying the same sequence of upserts a second time changes
nothing. -/
theorem upsertAll_idem {α κ : Type} [DecidableEq κ] (key : α → κ) (upd : α → α → α)
    (hkey : ∀ r p, key (upd r p) = key r)
    (hover : ∀ r p q, upd (upd r p) q = upd r q)
    (pts : List α) (hmatch : ∀ p ∈ pts, ∀ q ∈ pts, key p = key q → upd p q = q)
    (t : List α) (ht : UniqueKeys key t) :
    upsertAll key upd pts (upsertAll key upd pts t) = upsertAll key upd pts t := by
  have hu1 : UniqueKeys key (upsertAll key upd pts t) :=
    uniqueKeys_upsertAll key upd hkey pts t ht
  apply eq_of_uniqueKeys_ext key
  · exact uniqueKeys_upsertAll key upd hkey pts _ hu1
  · exact hu1
  · exact map_key_upsertAll_of_mem key upd hkey pts _
      (fun p hp => mem_map_key_upsertAll key upd hkey pts t p hp)
  · intro k
    rw [lookupKey_upsertAll key upd hkey hover pts hmatch _ k,
      lookupKey_upsertAll key upd hkey hover pts hmatch t k]
    cases hl : lastPoint key k pts with
    | none => rfl
    | some q =>
      obtain ⟨hqmem, _⟩ := lastPoint_mem_key key hl
      cases hr : lookupKey key k t with
      | some r => simp [hover]
      | none => simp [hmatch q hqmem q hqmem rfl]

/-- Two backfilled rows for the same (stock_id, timestamp) agree after
applying the ON DUPLICATE KEY UPDATE merge: all mutable fields come from
the newer row and key plus source are identical anyway. -/
theorem pricePoint_row_merge (sid : Nat) (pts : List HistoricalPoint) :
    ∀ p ∈ pts.map (backfillPricePointRow sid), ∀ q ∈ pts.map (backfillPricePointRow sid),
      pricePointKey p = pricePointKey q → pricePointUpd p q = q := by
  intro p hp q hq hk
  obtain ⟨pp, _, rfl⟩ := List.mem_map.mp hp
  obtain ⟨qq, _, rfl⟩ := List.mem_map.mp hq
  have ht : pp.time = qq.time := by
    simpa [pricePointKey, backfillPricePointRow, Prod.ext_iff] using hk
  simp [pricePointUpd, backfillPricePointRow, ht]

/-- Same merge property for aggregate rows. -/
theorem aggregate_row_merge (sid : Nat) (pts : List HistoricalPoint) :
    ∀ p ∈ pts.map (backfillAggregateRow sid), ∀ q ∈ pts.map (backfillAggregateRow sid),
      aggregateKey p = aggregateKey q → aggregateUpd p q = q := by
  intro p hp q hq hk
  obtain ⟨pp, _, rfl⟩ := List.mem_map.mp hp
  obtain ⟨qq, _, rfl⟩ := List.mem_map.mp hq
  have ht : pp.time = qq.time := by
    simpa [aggregateKey, backfillAggregateRow, Prod.ext_iff] using hk
  simp [aggregateUpd, backfillAggregateRow, ht]

/-- A fold over pairs whose components do not interact splits into two
independent folds. -/
theorem foldl_pair {α β γ : Type} (g1 : α → γ → α) (g2 : β → γ → β) :
    ∀ (l : List γ) (a : α) (b : β),
      l.foldl (fun s p => (g1 s.1 p, g2 s.2 p)) (a, b) = (l.foldl g1 a, l.foldl g2 b)
  | [], _, _ => rfl
  | p :: l, a, b => by
    simp only [List.foldl_cons]
    exact foldl_pair g1 g2 l (g1 a p) (g2 b p)

/-- The write loop of backfillPeriod is the pair of the price-table
upsert sequence and, for coarse timeframes, the aggregate-table upsert
sequence. -/
theorem backfillPeriodWrites_eq (sid : Nat) (tf : String) (pts : List HistoricalPoint)
    (ph : List PricePointRow) (ah : List AggregateRow) :
    backfillPeriodWrites sid tf pts ph ah =
      (upsertAll pricePointKey pricePointUpd (pts.map (backfillPricePointRow sid)) ph,
       if tf ≠ "minute" ∧ tf ≠ "1m" then
         upsertAll aggregateKey aggregateUpd (pts.map (backfillAggregateRow sid)) ah
       else ah) := by
  unfold backfillPeriodWrites upsertAll
  by_cases hc : tf ≠ "minute" ∧ tf ≠ "1m"
  · rw [if_pos hc, List.foldl_map, List.foldl_map]
    have hfun : (fun (s : List PricePointRow × List AggregateRow) p =>
        (upsertRow pricePointKey pricePointUpd (backfillPricePointRow sid p) s.1,
         if tf ≠ "minute" ∧ tf ≠ "1m" then
           upsertRow aggregateKey aggregateUpd (backfillAggregateRow sid p) s.2
         else s.2)) =
        fun s p =>
          (upsertRow pricePointKey pricePointUpd (backfillPricePointRow sid p) s.1,
           upsertRow aggregateKey aggregateUpd (backfillAggregateRow sid p) s.2) := by
      funext s p
      rw [if_pos hc]
    rw [hfun]
    exact foldl_pair
      (fun a p => upsertRow pricePointKey pricePointUpd (backfillPricePointRow sid p) a)
      (fun b p => upsertRow aggregateKey aggregateUpd (backfillAggregateRow sid p) b)
      pts ph ah
  · rw [if_neg hc, List.foldl_map]
    have hfun : (fun (s : List PricePointRow × List AggregateRow) p =>
        (upsertRow pricePointKey pricePointUpd (backfillPricePointRow sid p) s.1,
         if tf ≠ "minute" ∧ tf ≠ "1m" then
           upsertRow aggregateKey aggregateUpd (backfillAggregateRow sid p) s.2
         else s.2)) =
        fun s p =>
          (upsertRow pricePointKey pricePointUpd (backfillPricePointRow sid p) s.1,
           s.2) := by
      funext s p
      rw [if_neg hc]
    rw [hfun]
    have hsplit : ∀ (l : List HistoricalPoint) (a : List PricePointRow)
        (b : List AggregateRow),
        l.foldl (fun s p =>
            (upsertRow pricePointKey pricePointUpd (backfillPricePointRow sid p) s.1,
             s.2)) (a, b)
          = (l.foldl (fun a2 p =>
              upsertRow pricePointKey pricePointUpd (backfillPricePointRow sid p) a2) a,
             b) := by
      intro l
      induction l with
      | nil => intro a b; rfl
      | cons x l ih =>
        intro a b
        simp only [List.foldl_cons]
        exact ih _ b
    exact hsplit pts ph ah

/-- C5: backfill is idempotent — if the write loop of backfillPeriod
over a historical dataset turned key-unique stores into (ph1, ah1), then
running the same write loop again over (ph1, ah1) returns (ph1, ah1)
unchanged, and both stores still have no duplicate
(instrument, timestamp) rows. -/
theorem backfillPeriod_idempotent (sid : Nat) (tf : String) (pts : List HistoricalPoint)
    (ph : List PricePointRow) (ah : List AggregateRow)
    (hph : UniqueKeys pricePointKey ph) (hah : UniqueKeys aggregateKey ah)
    (ph1 : List PricePointRow) (ah1 : List AggregateRow)
    (heq : backfillPeriodWrites sid tf pts ph ah = (ph1, ah1)) :
    backfillPeriodWrites sid tf pts ph1 ah1 = (ph1, ah1)
    ∧ UniqueKeys pricePointKey ph1 ∧ UniqueKeys aggregateKey ah1 := by
  have hkeyP : ∀ (r p : PricePointRow),
      pricePointKey (pricePointUpd r p) = pricePointKey r := fun _ _ => rfl
  have hoverP : ∀ (r p q : PricePointRow),
      pricePointUpd (pricePointUpd r p) q = pricePointUpd r q := fun _ _ _ => rfl
  have hkeyA : ∀ (r p : AggregateRow),
      aggregateKey (aggregateUpd r p) = aggregateKey r := fun _ _ => rfl
  have hoverA : ∀ (r p q : AggregateRow),
      aggregateUpd (aggregateUpd r p) q = aggregateUpd r q := fun _ _ _ => rfl
  rw [backfillPeriodWrites_eq sid tf pts ph ah] at heq
  injection heq with h1 h2
  subst h1
  subst h2
  refine ⟨?_, ?_, ?_⟩
  · rw [backfillPeriodWrites_eq sid tf pts _ _]
    by_cases hc : tf ≠ "minute" ∧ tf ≠ "1m"
    · simp only [if_pos hc]
      rw [upsertAll_idem pricePointKey pricePointUpd hkeyP hoverP _
          (pricePoint_row_merge sid pts) ph hph,
        upsertAll_idem aggregateKey aggregateUpd hkeyA hoverA _
          (aggregate_row_merge sid pts) ah hah]
    · simp only [if_neg hc]
      rw [upsertAll_idem pricePointKey pricePointUpd hkeyP hoverP _
          (pricePoint_row_merge sid pts) ph hph]
  · exact uniqueKeys_upsertAll pricePointKey pricePointUpd hkeyP _ ph hph
  · by_cases hc : tf ≠ "minute" ∧ tf ≠ "1m"
    · simp only [if_pos hc]
      exact uniqueKeys_upsertAll aggregateKey aggregateUpd hkeyA _ ah hah
    · simp only [if_neg hc]
      exact hah

/-- C5 witness: one hourly point written through backfill twice, from
empty stores. -/
theorem backfillPeriod_idempotent_witness :
    UniqueKeys pricePointKey ([] : List PricePointRow)
    ∧ UniqueKeys aggregateKey ([] : List AggregateRow)
    ∧ backfillPeriodWrites 1 "hour" [⟨10, 5, some 2, none, none, none⟩] [] []
        = ([⟨1, 5, 2, 10, "rest"⟩], [⟨1, 5, 5, 5, 5, 2, 10, "rest"⟩])
    ∧ (backfillPeriodWrites 1 "hour" [⟨10, 5, some 2, none, none, none⟩]
          [⟨1, 5, 2, 10, "rest"⟩] [⟨1, 5, 5, 5, 5, 2, 10, "rest"⟩]
        = ([⟨1, 5, 2, 10, "rest"⟩], [⟨1, 5, 5, 5, 5, 2, 10, "rest"⟩])
      ∧ UniqueKeys pricePointKey [⟨1, 5, 2, 10, "rest"⟩]
      ∧ UniqueKeys aggregateKey [⟨1, 5, 5, 5, 5, 2, 10, "rest"⟩]) := by
  refine ⟨by simp [UniqueKeys], by simp [UniqueKeys], by decide, ?_⟩
  exact backfillPeriod_idempotent 1 "hour" [⟨10, 5, some 2, none, none, none⟩] [] []
    (by simp [UniqueKeys]) (by simp [UniqueKeys]) _ _ (by decide)

/-- Rounding 100 * n / n half-up gives exactly 100 for positive n. -/
theorem jsRound100_self (n : Nat) (h : 1 ≤ n) : jsRound100 n n = 100 := by
  unfold jsRound100
  exact Nat.div_eq_of_lt_le (by omega) (by omega)

/-- Each gap-loop update sets processedPeriods to i + 1. -/
theorem processGapUpdate_processedPeriods (n : Nat) (outcomes : Nat → Except String Unit)
    (cur : JobState) (i : Nat) (g : GapPeriod) :
    (processGapUpdate n outcomes cur i g).processedPeriods = i + 1 := by
  cases h : outcomes i <;> simp [processGapUpdate, h]

/-- Each gap-loop update leaves status and totalPeriods unchanged. -/
theorem processGapUpdate_fields (n : Nat) (outcomes : Nat → Except String Unit)
    (cur : JobState) (i : Nat) (g : GapPeriod) :
    (processGapUpdate n outcomes cur i g).status = cur.status
    ∧ (processGapUpdate n outcomes cur i g).totalPeriods = cur.totalPeriods := by
  cases h : outcomes i <;> simp [processGapUpdate, h]

/-- The last state stored by the gap loop: processedPeriods has advanced
over all gaps, progress is the rounded percentage, and the errors list
has gained exactly one entry per failing gap. -/
theorem gapLoopStates_getLastD (n : Nat) (outcomes : Nat → Except String Unit)
    (gaps : List GapPeriod) :
    ∀ (i : Nat) (cur : JobState), gaps ≠ [] →
      (gapLoopStates n outcomes gaps i cur).getLastD cur =
        { cur with processedPeriods := i + gaps.length,
                   progress := jsRound100 (i + gaps.length) n,
                   errors := cur.errors ++ backfillErrorEntries outcomes gaps i } := by
  induction gaps with
  | nil => intro i cur h; exact absurd rfl h
  | cons g rest ih =>
    intro i cur _
    rw [gapLoopStates, List.getLastD_cons]
    by_cases hrest : rest = []
    · subst hrest
      cases h : outcomes i <;>
        simp [gapLoopStates, processGapUpdate, h, backfillErrorEntries]
    · rw [ih (i + 1) (processGapUpdate n outcomes cur i g) hrest]
      have harith : i + 1 + rest.length = i + (g :: rest).length := by
        simp; omega
      cases h : outcomes i <;>
        simp [processGapUpdate, h, backfillErrorEntries, harith]

/-- Every state stored by the gap loop keeps the status and totalPeriods
of the state it started from. -/
theorem gapLoopStates_fields (n : Nat) (outcomes : Nat → Except String Unit)
    (gaps : List GapPeriod) :
    ∀ (i : Nat) (cur : JobState), ∀ s ∈ gapLoopStates n outcomes gaps i cur,
      s.status = cur.status ∧ s.totalPeriods = cur.totalPeriods := by
  induction gaps with
  | nil => intro i cur s hs; simp [gapLoopStates] at hs
  | cons g rest ih =>
    intro i cur s hs
    rw [gapLoopStates] at hs
    rcases List.mem_cons.mp hs with rfl | hs2
    · exact processGapUpdate_fields n outcomes cur i g
    · have h1 := ih (i + 1) (processGapUpdate n outcomes cur i g) s hs2
      have h2 := processGapUpdate_fields n outcomes cur i g
      exact ⟨h1.1.trans h2.1, h1.2.trans h2.2⟩

/-- Every state stored by the gap loop has processedPeriods at most the
starting index plus the number of remaining gaps. -/
theorem gapLoopStates_processed_le (n : Nat) (outcomes : Nat → Except String Unit)
    (gaps : List GapPeriod) :
    ∀ (i : Nat) (cur : JobState), ∀ s ∈ gapLoopStates n outcomes gaps i cur,
      s.processedPeriods ≤ i + gaps.length := by
  induction gaps with
  | nil => intro i cur s hs; simp [gapLoopStates] at hs
  | cons g rest ih =>
    intro i cur s hs
    rw [gapLoopStates] at hs
    rcases List.mem_cons.mp hs with rfl | hs2
    · rw [processGapUpdate_processedPeriods]
      simp
    · have := ih (i + 1) (processGapUpdate n outcomes cur i g) s hs2
      simp at this ⊢
      omega

/-- processedPeriods never decreases along the states stored by the gap
loop. -/
theorem gapLoopStates_chain (n : Nat) (outcomes : Nat → Except String Unit)
    (gaps : List GapPeriod) :
    ∀ (i : Nat) (cur : JobState), cur.processedPeriods ≤ i + 1 →
      List.Chain (fun a b => a.processedPeriods ≤ b.processedPeriods) cur
        (gapLoopStates n outcomes gaps i cur) := by
  induction gaps with
  | nil => intro i cur _; exact List.Chain.nil
  | cons g rest ih =>
    intro i cur hcur
    rw [gapLoopStates]
    refine List.Chain.cons ?_ (ih (i + 1) _ ?_)
    · rw [processGapUpdate_processedPeriods]; exact hcur
    · rw [processGapUpdate_processedPeriods]; omega

/-- A chain over a list extended by one element whose link from the last
state holds. -/
theorem chain_append_single {α : Type} {R : α → α → Prop} :
    ∀ (l : List α) (c x : α), List.Chain R c l → R (l.getLastD c) x →
      List.Chain R c (l ++ [x])
  | [], c, x, _, hR => List.Chain.cons hR List.Chain.nil
  | a :: l, c, x, hch, hR => by
    rcases hch with _ | ⟨hca, hal⟩
    exact List.Chain.cons hca (chain_append_single l a x hal (by rwa [List.getLastD_cons] at hR))

/-- Appending one element makes it the last. -/
theorem getLastD_append_single {α : Type} (l : List α) (x d : α) :
    (l ++ [x]).getLastD d = x := by
  induction l generalizing d with
  | nil => rfl
  | cons a l ih => rw [List.cons_append, List.getLastD_cons]; exact ih a

/-- Shape of the stored-state sequence of a run that reaches a nonempty
gap loop. -/
theorem performBackfillTrace_ok_ne (gaps : List GapPeriod)
    (outcomes : Nat → Except String Unit) (hg : gaps ≠ []) :
    performBackfillTrace true (Except.ok gaps) outcomes =
      [newJobState, jobIdentifying, processingJobState gaps]
        ++ gapLoopStates gaps.length outcomes gaps 0 (processingJobState gaps)
        ++ [{ (gapLoopStates gaps.length outcomes gaps 0
                  (processingJobState gaps)).getLastD (processingJobState gaps) with
              status := "completed", completed := true }] := by
  have h : gaps.isEmpty = false := by
    cases gaps with
    | nil => exact absurd rfl hg
    | cons a l => rfl
  simp only [performBackfillTrace, h, Bool.false_eq_true, if_false]

/-- C6: when the pool is ready and gap identification succeeds, the gap
loop runs to the end whatever the per-gap outcomes are: the final job is
completed, processedGaps has advanced over every gap (also past failing
ones), and the errors list records exactly one {symbol, span, message}
entry per failing gap, in order; the job fails only when the pool was not
ready or gap identification itself threw. -/
theorem performBackfill_partial_failure_semantics (gaps : List GapPeriod)
    (outcomes : Nat → Except String Unit) (e : String) :
    (performBackfillFinal true (Except.ok gaps) outcomes).status = "completed"
    ∧ (performBackfillFinal true (Except.ok gaps) outcomes).completed = true
    ∧ (performBackfillFinal true (Except.ok gaps) outcomes).processedPeriods = gaps.length
    ∧ (performBackfillFinal true (Except.ok gaps) outcomes).errors
        = backfillErrorEntries outcomes gaps 0
    ∧ (performBackfillFinal false (Except.ok gaps) outcomes).status = "failed"
    ∧ (performBackfillFinal true (Except.error e) outcomes).status = "failed" := by
  by_cases hg : gaps = []
  · subst hg
    exact ⟨rfl, rfl, rfl, rfl, rfl, rfl⟩
  · have hlast := gapLoopStates_getLastD gaps.length outcomes gaps 0
      (processingJobState gaps) hg
    have hfin : performBackfillFinal true (Except.ok gaps) outcomes =
        { processingJobState gaps with
            status := "completed", completed := true,
            processedPeriods := 0 + gaps.length,
            progress := jsRound100 (0 + gaps.length) gaps.length,
            errors := (processingJobState gaps).errors
              ++ backfillErrorEntries outcomes gaps 0 } := by
      rw [performBackfillFinal, performBackfillTrace_ok_ne gaps outcomes hg,
        getLastD_append_single, hlast]
    rw [hfin]
    exact ⟨rfl, rfl, by simp, by simp [processingJobState, jobIdentifying, newJobState],
      rfl, rfl⟩

/-- C8 (counterexample): a run whose structural precondition fails (pool
not ready) ends with terminal status failed while progressPercent is
still 0, so a terminal job does not always have progressPercent 100. -/
theorem failed_job_progress_not_100 :
    (performBackfillFinal false (Except.ok []) (fun _ => Except.ok ())).status = "failed"
    ∧ (performBackfillFinal false (Except.ok []) (fun _ => Except.ok ())).completed = true
    ∧ (performBackfillFinal false (Except.ok []) (fun _ => Except.ok ())).progress ≠ 100 := by
  refine ⟨rfl, rfl, by decide⟩

/-- C8 (amended): along the stored updates of any run, processedGaps
never decreases and never exceeds totalGaps once totalGaps is set, and a
job whose status is the terminal completed always has progressPercent
100; a failed job, however, keeps its last progress (0 when the pool was
missing or gap identification threw), so progressPercent 100 is implied
by status completed but not equivalent to the status being terminal. -/
theorem backfillJob_progress_monotonicity (poolReady : Bool)
    (gapsResult : Except String (List GapPeriod)) (outcomes : Nat → Except String Unit) :
    List.Chain' (fun a b => a.processedPeriods ≤ b.processedPeriods)
        (performBackfillTrace poolReady gapsResult outcomes)
    ∧ (∀ s ∈ performBackfillTrace poolReady gapsResult outcomes,
        ∀ n, s.totalPeriods = some n → s.processedPeriods ≤ n)
    ∧ (∀ s ∈ performBackfillTrace poolReady gapsResult outcomes,
        s.status = "completed" → s.progress = 100) := by
  cases poolReady with
  | false =>
    refine ⟨?_, ?_, ?_⟩
    · simp [performBackfillTrace, List.chain'_cons, List.chain'_singleton,
        newJobState, failJobState]
    · intro s hs m hm
      simp only [performBackfillTrace, List.mem_cons, List.not_mem_nil, or_false] at hs
      rcases hs with rfl | rfl <;> simp [newJobState, failJobState] at hm
    · intro s hs hc
      simp only [performBackfillTrace, List.mem_cons, List.not_mem_nil, or_false] at hs
      rcases hs with rfl | rfl
      · exact absurd hc (by decide)
      · exact absurd hc (by decide)
  | true =>
    cases gapsResult with
    | error e =>
      refine ⟨?_, ?_, ?_⟩
      · simp [performBackfillTrace, List.chain'_cons, List.chain'_singleton,
        newJobState, jobIdentifying, failJobState]
      · intro s hs m hm
        simp only [performBackfillTrace, List.mem_cons, List.not_mem_nil, or_false] at hs
        rcases hs with rfl | rfl | rfl <;>
          simp [newJobState, jobIdentifying, failJobState] at hm
      · intro s hs hc
        simp only [performBackfillTrace, List.mem_cons, List.not_mem_nil, or_false] at hs
        rcases hs with rfl | rfl | rfl
        · exact absurd hc (by decide)
        · exact absurd hc (by decide)
        · exact absurd hc (by simp [failJobState, jobIdentifying, newJobState])
    | ok gaps =>
      by_cases hg : gaps = []
      · subst hg
        refine ⟨?_, ?_, ?_⟩
        · simp [performBackfillTrace, List.chain'_cons, List.chain'_singleton,
            processingJobState, jobIdentifying, newJobState]
        · intro s hs m hm
          simp [performBackfillTrace] at hs
          rcases hs with rfl | rfl | rfl | rfl
          · simp [newJobState] at hm
          · simp [jobIdentifying, newJobState] at hm
          · simp [processingJobState, jobIdentifying, newJobState]
          · simp [processingJobState, jobIdentifying, newJobState]
        · intro s hs hc
          simp [performBackfillTrace] at hs
          rcases hs with rfl | rfl | rfl | rfl
          · exact absurd hc (by decide)
          · exact absurd hc (by decide)
          · exact absurd hc (by decide)
          · rfl
      · have hlen : 1 ≤ gaps.length := by
          cases gaps with
          | nil => exact absurd rfl hg
          | cons a l => simp
        have htr := performBackfillTrace_ok_ne gaps outcomes hg
        have hlast := gapLoopStates_getLastD gaps.length outcomes gaps 0
          (processingJobState gaps) hg
        refine ⟨?_, ?_, ?_⟩
        · rw [htr]
          show List.Chain _ newJobState _
          refine List.Chain.cons (by decide) ?_
          refine List.Chain.cons
            (by simp [jobIdentifying, processingJobState, newJobState]) ?_
          refine chain_append_single _ _ _ ?_ ?_
          · exact gapLoopStates_chain gaps.length outcomes gaps 0
              (processingJobState gaps)
              (by simp [processingJobState, jobIdentifying, newJobState])
          · exact Nat.le_refl _
        · intro s hs m hm
          rw [htr] at hs
          simp only [List.mem_append, List.mem_cons, List.not_mem_nil, or_false,
            List.mem_singleton] at hs
          rcases hs with ((rfl | rfl | rfl) | hs) | rfl
          · simp [newJobState] at hm
          · simp [jobIdentifying, newJobState] at hm
          · simp [processingJobState, jobIdentifying, newJobState]
          · have h1 := (gapLoopStates_fields gaps.length outcomes gaps 0
              (processingJobState gaps) s hs).2
            have h2 := gapLoopStates_processed_le gaps.length outcomes gaps 0
              (processingJobState gaps) s hs
            rw [h1] at hm
            simp [processingJobState, jobIdentifying, newJobState] at hm
            omega
          · rw [hlast] at hm
            have hm2 : gaps.length = m := by
              simpa [processingJobState, jobIdentifying, newJobState] using hm
            rw [hlast]
            show 0 + gaps.length ≤ m
            omega
        · intro s hs hc
          rw [htr] at hs
          simp only [List.mem_append, List.mem_cons, List.not_mem_nil, or_false,
            List.mem_singleton] at hs
          rcases hs with ((rfl | rfl | rfl) | hs) | rfl
          · exact absurd hc (by decide)
          · exact absurd hc (by decide)
          · exact absurd hc (by simp [processingJobState, jobIdentifying, newJobState])
          · have h1 := (gapLoopStates_fields gaps.length outcomes gaps 0
              (processingJobState gaps) s hs).1
            rw [h1] at hc
            exact absurd hc (by simp [processingJobState, jobIdentifying, newJobState])
          · rw [hlast]
            show jsRound100 (0 + gaps.length) gaps.length = 100
            rw [Nat.zero_add]
            exact jsRound100_self gaps.length hlen

/-- C9: granularity selection is a pure function of the requested span:
spans under one day (86400000 ms) give minute bars, under one week hourly
bars, under one month (30 days) daily bars, under one year (365 days)
weekly bars, and anything longer monthly bars; the result is symmetric in
the endpoints and invariant under translating both endpoints, so it
depends only on the span between them. -/
theorem determineTimeframe_tiering (s e : Int) :
    (determineTimeframe s e = "minute" ↔ (e - s).natAbs < 86400000)
    ∧ (determineTimeframe s e = "hour" ↔
        86400000 ≤ (e - s).natAbs ∧ (e - s).natAbs < 604800000)
    ∧ (determineTimeframe s e = "day" ↔
        604800000 ≤ (e - s).natAbs ∧ (e - s).natAbs < 2592000000)
    ∧ (determineTimeframe s e = "week" ↔
        2592000000 ≤ (e - s).natAbs ∧ (e - s).natAbs < 31536000000)
    ∧ (determineTimeframe s e = "month" ↔ 31536000000 ≤ (e - s).natAbs)
    ∧ determineTimeframe s e = determineTimeframe e s
    ∧ ∀ d : Int, determineTimeframe (s + d) (e + d) = determineTimeframe s e := by
  have hsym : (e - s).natAbs = (s - e).natAbs := by omega
  have htr : ∀ d : Int, (e + d - (s + d)).natAbs = (e - s).natAbs := by
    intro d; omega
  refine ⟨?_, ?_, ?_, ?_, ?_, ?_, ?_⟩
  · constructor
    · intro h
      simp only [determineTimeframe] at h
      split_ifs at h with h1 h2 h3 h4
      · exact h1
      all_goals exact absurd h (by decide)
    · intro h
      simp only [determineTimeframe]
      rw [if_pos h]
  · constructor
    · intro h
      simp only [determineTimeframe] at h
      split_ifs at h with h1 h2 h3 h4
      · exact absurd h (by decide)
      · omega
      all_goals exact absurd h (by decide)
    · intro h
      simp only [determineTimeframe]
      rw [if_neg (by omega), if_pos (by omega)]
  · constructor
    · intro h
      simp only [determineTimeframe] at h
      split_ifs at h with h1 h2 h3 h4
      · exact absurd h (by decide)
      · exact absurd h (by decide)
      · omega
      all_goals exact absurd h (by decide)
    · intro h
      simp only [determineTimeframe]
      rw [if_neg (by omega), if_neg (by omega), if_pos (by omega)]
  · constructor
    · intro h
      simp only [determineTimeframe] at h
      split_ifs at h with h1 h2 h3 h4
      · exact absurd h (by decide)
      · exact absurd h (by decide)
      · exact absurd h (by decide)
      · omega
      · exact absurd h (by decide)
    · intro h
      simp only [determineTimeframe]
      rw [if_neg (by omega), if_neg (by omega), if_neg (by omega), if_pos (by omega)]
  · constructor
    · intro h
      simp only [determineTimeframe] at h
      split_ifs at h with h1 h2 h3 h4
      · exact absurd h (by decide)
      · exact absurd h (by decide)
      · exact absurd h (by decide)
      · exact absurd h (by decide)
      · omega
    · intro h
      simp only [determineTimeframe]
      rw [if_neg (by omega), if_neg (by omega), if_neg (by omega), if_neg (by omega)]
  · simp only [determineTimeframe]
    rw [hsym]
  · intro d
    simp only [determineTimeframe]
    rw [htr d]

/-- C10: getBackfillStatus is total — for a jobId present in the job map
it returns that job's snapshot, and for an absent jobId it returns the
Job-not-found object; it never returns anything else. -/
theorem getBackfillStatus_total_lookup (jobs : List (String × JobState)) (jobId : String) :
    (∃ j, jobs.lookup jobId = some j
        ∧ getBackfillStatus jobs jobId = BackfillStatusResult.job j)
    ∨ (jobs.lookup jobId = none
        ∧ getBackfillStatus jobs jobId = BackfillStatusResult.notFound "Job not found") := by
  rcases h : jobs.lookup jobId with _ | j
  · exact Or.inr ⟨rfl, by simp [getBackfillStatus, h]⟩
  · exact Or.inl ⟨j, rfl, by simp [getBackfillStatus, h]⟩

/-- Every id selected by the cleanup batch query comes from an expired
websocket row strictly beyond the cursor. -/
theorem mem_selectCleanupBatch {cutoff : Int} {batchSize : Nat} {table : List HistoryRow}
    {lastId : Nat} {i : Nat} (h : i ∈ selectCleanupBatch cutoff batchSize table lastId) :
    ∃ r, r ∈ table ∧ wsRowExpired cutoff r = true ∧ lastId < r.id ∧ r.id = i := by
  unfold selectCleanupBatch at h
  have h1 := List.take_subset _ _ h
  have h2 := (List.perm_insertionSort (· ≤ ·) _).mem_iff.mp h1
  obtain ⟨r, hr, hri⟩ := List.mem_map.mp h2
  obtain ⟨hft, hfb⟩ := List.mem_filter.mp hr
  have hands : wsRowExpired cutoff r = true ∧ lastId < r.id := by simpa using hfb
  exact ⟨r, hft, hands.1, hands.2, hri⟩

/-- An empty cleanup batch means no expired websocket row lies beyond
the cursor. -/
theorem selectCleanupBatch_nil {cutoff : Int} {batchSize : Nat} {table : List HistoryRow}
    {lastId : Nat} (hbs : 0 < batchSize)
    (h : selectCleanupBatch cutoff batchSize table lastId = []) :
    ∀ r ∈ table, wsRowExpired cutoff r = true → ¬ lastId < r.id := by
  unfold selectCleanupBatch at h
  rw [List.take_eq_nil_iff] at h
  rcases h with h | h
  · omega
  · have hperm := List.perm_insertionSort (· ≤ ·)
      ((table.filter fun r => wsRowExpired cutoff r && decide (lastId < r.id)).map (·.id))
    rw [h] at hperm
    have hmapnil : ((table.filter fun r =>
        wsRowExpired cutoff r && decide (lastId < r.id)).map (·.id)) = [] :=
      List.eq_nil_of_length_eq_zero (by simpa using hperm.length_eq.symm)
    have hfilnil := List.map_eq_nil_iff.mp hmapnil
    intro r hr hexp hlt
    exact List.filter_eq_nil_iff.mp hfilnil r hr (by simp [hexp, hlt])

/-- Deleting a batch that removes at least one expired row strictly
shrinks the number of expired rows. -/
theorem cleanup_filter_length_lt {α : Type} {m keep : α → Bool} {t : List α} {r : α}
    (hr : r ∈ t) (hm : m r = true) (hk : keep r = false) :
    ((t.filter keep).filter m).length < (t.filter m).length := by
  have hsub : List.Sublist ((t.filter keep).filter m) (t.filter m) :=
    List.Sublist.filter m (List.filter_sublist t)
  refine Nat.lt_of_le_of_ne hsub.length_le ?_
  intro heq
  have heqlist := hsub.eq_of_length heq
  have hrin : r ∈ t.filter m := List.mem_filter.mpr ⟨hr, hm⟩
  rw [← heqlist] at hrin
  have h1 := (List.mem_filter.mp hrin).1
  have h2 := (List.mem_filter.mp h1).2
  rw [hk] at h2
  simp at h2

/-- In a weakly sorted list, everything outside the taken prefix but in
the list is strictly larger than the last element of the prefix. -/
theorem sorted_take_lt {S : List Nat} {bs : Nat} {x : Nat}
    (hsorted : List.Sorted (· ≤ ·) S) (hx : x ∈ S) (hnotin : x ∉ S.take bs)
    {y : Nat} (hy : (S.take bs).getLast? = some y) : y < x := by
  have hsplit := List.take_append_drop bs S
  have hxdrop : x ∈ S.drop bs := by
    rcases List.mem_append.mp (show x ∈ S.take bs ++ S.drop bs by rw [hsplit]; exact hx)
      with h | h
    · exact absurd h hnotin
    · exact h
  have hymem : y ∈ S.take bs := mem_of_getLast?_eq_some hy
  have hp : List.Pairwise (· ≤ ·) (S.take bs ++ S.drop bs) := by
    rw [hsplit]
    exact hsorted
  have hle := (List.pairwise_append.mp hp).2.2 y hymem x hxdrop
  have hne : y ≠ x := fun h => hnotin (h ▸ hymem)
  omega

/-- The batch loop of cleanupTableInBatches, given unique ids and enough
fuel, deletes exactly the expired websocket rows beyond the cursor and
leaves every other row in place. -/
theorem cleanupLoop_eq_filter (cutoff : Int) (batchSize : Nat) (hbs : 0 < batchSize) :
    ∀ (fuel : Nat) (table : List HistoryRow) (lastId : Nat),
      (table.map (·.id)).Nodup →
      (∀ r ∈ table, wsRowExpired cutoff r = true → lastId < r.id) →
      (table.filter (wsRowExpired cutoff)).length < fuel →
      cleanupLoop cutoff batchSize fuel table lastId
        = table.filter (fun r => !(wsRowExpired cutoff r)) := by
  intro fuel
  induction fuel with
  | zero => intro table lastId _ _ h; omega
  | succ fuel ih =>
    intro table lastId hnodup hinv hlt
    simp only [cleanupLoop]
    by_cases hempty : (selectCleanupBatch cutoff batchSize table lastId).isEmpty = true
    · rw [if_pos hempty]
      have hnil := List.isEmpty_iff.mp hempty
      have hnone : ∀ r ∈ table, wsRowExpired cutoff r = false := by
        intro r hr
        rcases Bool.eq_false_or_eq_true (wsRowExpired cutoff r) with hb | hb
        · exact absurd (hinv r hr hb) (selectCleanupBatch_nil hbs hnil r hr hb)
        · exact hb
      exact (List.filter_eq_self.mpr (fun r hr => by rw [hnone r hr]; rfl)).symm
    · rw [if_neg hempty]
      have hne : selectCleanupBatch cutoff batchSize table lastId ≠ [] :=
        fun h0 => hempty (List.isEmpty_iff.mpr h0)
      obtain ⟨i, hi⟩ := List.exists_mem_of_ne_nil _ hne
      obtain ⟨r0, hr0t, hr0exp, hr0lt, hr0id⟩ := mem_selectCleanupBatch hi
      have hdec : ((table.filter fun r =>
            !(decide (r.id ∈ selectCleanupBatch cutoff batchSize table lastId))).filter
          (wsRowExpired cutoff)).length < (table.filter (wsRowExpired cutoff)).length := by
        apply cleanup_filter_length_lt hr0t hr0exp
        simp [hr0id, hi]
      have hnodup2 : ((table.filter fun r =>
          !(decide (r.id ∈ selectCleanupBatch cutoff batchSize table lastId))).map
            (·.id)).Nodup :=
        List.Nodup.sublist (List.Sublist.map (·.id) (List.filter_sublist table)) hnodup
      have hinv2 : ∀ r ∈ table.filter fun r =>
          !(decide (r.id ∈ selectCleanupBatch cutoff batchSize table lastId)),
          wsRowExpired cutoff r = true →
            (selectCleanupBatch cutoff batchSize table lastId).getLastD 0 < r.id := by
        intro r hr hexp
        have hparts := List.mem_filter.mp hr
        have hnotin : r.id ∉ selectCleanupBatch cutoff batchSize table lastId := by
          have hb := hparts.2
          rw [Bool.not_eq_true'] at hb
          exact of_decide_eq_false hb
        have hltr := hinv r hparts.1 hexp
        obtain ⟨y, hy⟩ := Option.isSome_iff_exists.mp (List.getLast?_isSome.mpr hne)
        have hyD : (selectCleanupBatch cutoff batchSize table lastId).getLastD 0 = y := by
          rw [List.getLastD_eq_getLast?, hy]
          rfl
        rw [hyD]
        refine sorted_take_lt (List.sorted_insertionSort (· ≤ ·) _) ?_ hnotin hy
        apply (List.perm_insertionSort (· ≤ ·) _).mem_iff.mpr
        exact List.mem_map.mpr ⟨r, List.mem_filter.mpr ⟨hparts.1,
          by simp [hexp, hltr]⟩, rfl⟩
      have hmeas : ((table.filter fun r =>
          !(decide (r.id ∈ selectCleanupBatch cutoff batchSize table lastId))).filter
            (wsRowExpired cutoff)).length < fuel := by omega
      rw [ih _ _ hnodup2 hinv2 hmeas, List.filter_filter]
      apply List.filter_congr
      intro r hr
      cases hm : wsRowExpired cutoff r
      · have hnot : r.id ∉ selectCleanupBatch cutoff batchSize table lastId := by
          intro hin
          obtain ⟨r2, hr2t, hr2exp, _, hr2id⟩ := mem_selectCleanupBatch hin
          have : r2 = r := List.inj_on_of_nodup_map hnodup hr2t hr hr2id
          rw [this, hm] at hr2exp
          cases hr2exp
        simp [hm, hnot]
      · simp [hm]

/-- C7: an error-free retention pass over both history tables, with
unique positive primary keys, deletes exactly the websocket-sourced rows
whose timestamp is older than the cutoff (fifteen minutes before now)
and leaves every polling or repair row and every newer row unchanged, in
order; the batches in the loop are id-ascending, of size at most 250,
each selected strictly beyond the last deleted id, until a batch comes
back empty. -/
theorem cleanupWebsocketData_retention (now : Int) (ph ah : List HistoryRow)
    (hphN : (ph.map (·.id)).Nodup) (hahN : (ah.map (·.id)).Nodup)
    (hphP : ∀ r ∈ ph, 0 < r.id) (hahP : ∀ r ∈ ah, 0 < r.id) :
    cleanupWebsocketData now ph ah =
      (ph.filter (fun r => !(wsRowExpired (now - 15 * 60000) r)),
       ah.filter (fun r => !(wsRowExpired (now - 15 * 60000) r))) := by
  unfold cleanupWebsocketData cleanupTableInBatches
  show (cleanupLoop (now - 15 * 60000) 250
        ((ph.filter (wsRowExpired (now - 15 * 60000))).length + 1) ph 0,
      cleanupLoop (now - 15 * 60000) 250
        ((ah.filter (wsRowExpired (now - 15 * 60000))).length + 1) ah 0) = _
  rw [cleanupLoop_eq_filter (now - 15 * 60000) 250 (by omega)
      ((ph.filter (wsRowExpired (now - 15 * 60000))).length + 1) ph 0 hphN
      (fun r hr _ => hphP r hr) (by omega),
    cleanupLoop_eq_filter (now - 15 * 60000) 250 (by omega)
      ((ah.filter (wsRowExpired (now - 15 * 60000))).length + 1) ah 0 hahN
      (fun r hr _ => hahP r hr) (by omega)]

/-- C7 witness: a three-row price table holding one expired websocket
row, one equally old polling row and one fresh websocket row; cleanup
deletes exactly the first. -/
theorem cleanupWebsocketData_retention_witness :
    (([⟨1, "websocket", 0, 5⟩, ⟨2, "polling", 0, 6⟩, ⟨3, "websocket", 2000000, 7⟩] :
        List HistoryRow).map (·.id)).Nodup
    ∧ (([] : List HistoryRow).map (·.id)).Nodup
    ∧ (∀ r ∈ ([⟨1, "websocket", 0, 5⟩, ⟨2, "polling", 0, 6⟩,
        ⟨3, "websocket", 2000000, 7⟩] : List HistoryRow), 0 < r.id)
    ∧ (∀ r ∈ ([] : List HistoryRow), 0 < r.id)
    ∧ cleanupWebsocketData 1000000
        [⟨1, "websocket", 0, 5⟩, ⟨2, "polling", 0, 6⟩, ⟨3, "websocket", 2000000, 7⟩] []
        = (([⟨1, "websocket", 0, 5⟩, ⟨2, "polling", 0, 6⟩,
              ⟨3, "websocket", 2000000, 7⟩] : List HistoryRow).filter
            (fun r => !(wsRowExpired (1000000 - 15 * 60000) r)),
           (([] : List HistoryRow)).filter
            (fun r => !(wsRowExpired (1000000 - 15 * 60000) r))) := by
  refine ⟨by decide, by decide, by decide, by decide, ?_⟩
  exact cleanupWebsocketData_retention 1000000
    [⟨1, "websocket", 0, 5⟩, ⟨2, "polling", 0, 6⟩, ⟨3, "websocket", 2000000, 7⟩] []
    (by decide) (by decide) (by decide) (by decide)

end StockScreener
